import Mathlib

/-!
Verification of the `shotlister` worker scripts, centred on
`scripts/process_scene_queue.py`: the read-modify-write metadata accessor
(`update_metadata`), the description pipeline (`process_file`), the
persistent command loop (`main`), and the scene-detector adapter
(`detect_scenes_transnet`).  Python values are shallowly embedded: JSON
documents become association lists over an inductive `Json` type, the file
system becomes a total map from path strings to file contents, and the
pipeline becomes a state-passing function that additionally records an
event trace (metadata writes and inference invocations).
-/

set_option maxHeartbeats 1000000

namespace Shotlister

/-- A JSON value.  Python numbers (int and float alike) are modelled as
rationals; strings and booleans are modelled directly. -/
inductive Json where
  | null
  | bool (b : Bool)
  | num (q : ℚ)
  | str (s : String)
  | arr (xs : List Json)
  | obj (kvs : List (String × Json))
  deriving Repr

/-- A JSON object body: an ordered association list of key/value pairs,
mirroring a Python `dict` (unique keys, insertion-ordered). -/
abbrev Doc := List (String × Json)

/-- Dictionary lookup: the value at the first matching key
(Python `d[k]` / `d.get(k)`). -/
def docFind : Doc → String → Option Json
  | [], _ => none
  | (k', v) :: rest, k => if k' = k then some v else docFind rest k

@[simp] theorem docFind_nil (k : String) : docFind [] k = none := rfl

@[simp] theorem docFind_cons (k' : String) (v : Json) (rest : Doc) (k : String) :
    docFind ((k', v) :: rest) k = if k' = k then some v else docFind rest k := rfl

/-- Python truthiness of a JSON value (`bool(x)`): `None`, `False`, zero,
the empty string, empty list and empty dict are falsy. -/
def Json.truthy : Json → Bool
  | .null => false
  | .bool b => b
  | .num q => if q = 0 then false else true
  | .str s => if s = "" then false else true
  | .arr [] => false
  | .arr (_ :: _) => true
  | .obj [] => false
  | .obj (_ :: _) => true

/-- Python `d[k] = v` on a dict: replace the value if the key is present
(keeping its position), otherwise append the new binding at the end. -/
def setKey : Doc → String → Json → Doc
  | [], k, v => [(k, v)]
  | (k', v') :: rest, k, v =>
      if k' = k then (k, v) :: rest else (k', v') :: setKey rest k v

/-- Python `d.update(u)`: overlay the bindings of `u` onto `d`, one key at
a time, in `u`'s order (shallow key overlay). -/
def dictUpdate : Doc → Doc → Doc
  | d, [] => d
  | d, (k, v) :: rest => dictUpdate (setKey d k v) rest

/-- Content of one path in the file system: missing, a file whose bytes
parse as a JSON object (the parsed object is carried), or a file that
exists but is not a parsable JSON object (an image, corrupt JSON, ...). -/
inductive FileContent where
  | absent
  | jsonDoc (d : Doc)
  | other
  deriving Repr

/-- Python `Path(p).exists()` over a `FileContent`. -/
def FileContent.fileExists : FileContent → Bool
  | .absent => false
  | _ => true

/-- The file system: a total map from paths to contents. -/
abbrev FS := String → FileContent

/-- The metadata accessor `update_metadata` (process_scene_queue.py:63-74):
read the current on-disk document, overlay `updates` onto it (Python
`current.update(updates)`), write the merged document back, and return it.
`none` models the exception raised when the file is missing or not a
parsable JSON object. -/
def update_metadata (fs : FS) (path : String) (updates : Doc) : Option (FS × Doc) :=
  match fs path with
  | .jsonDoc current =>
      let merged := dictUpdate current updates
      some (Function.update fs path (.jsonDoc merged), merged)
  | _ => none

/-- Split a character list on a separator character, mirroring Python
`str.split(sep)` for a one-character separator (empty pieces kept). -/
def splitOnChar (c : Char) : List Char → List (List Char)
  | [] => [[]]
  | x :: xs =>
    let r := splitOnChar c xs
    if x = c then [] :: r
    else
      match r with
      | [] => [[x]]
      | h :: t => (x :: h) :: t

/-- Python `str.split("|")`. -/
def splitPipe (s : String) : List String :=
  (splitOnChar '|' s.data).map String.mk

/-- Python `pathlib.Path(p).name`: the last non-empty path component. -/
def pathName (p : String) : String :=
  String.mk ((((splitOnChar '/' p.data).filter (fun l => l ≠ [])).getLastD []))

/-- Python `pathlib.Path(p).parent`, rendered as a string: all components
but the last, or "." when there is only one component. -/
def parentDir (p : String) : String :=
  let comps := splitOnChar '/' p.data
  if comps.length ≤ 1 then "."
  else
    let r := List.intercalate ['/'] comps.dropLast
    if r = [] then "/" else String.mk r

/-- Python `Path(dir) / name` for a relative `name`. -/
def joinPath (dir name : String) : String := dir ++ "/" ++ name

/-- Python `round(q)`: round half to even (banker's rounding), here on
exact rationals.  CPython rounds the nearest binary double instead, which
agrees except within an ulp of a tie and is monotone either way; the
progress claims rely only on monotonicity and the exact endpoint
values. -/
def pyRound (q : ℚ) : ℤ :=
  if q - (⌊q⌋ : ℚ) < 1/2 then ⌊q⌋
  else if (1 : ℚ)/2 < q - (⌊q⌋ : ℚ) then ⌊q⌋ + 1
  else if ⌊q⌋ % 2 = 0 then ⌊q⌋ else ⌊q⌋ + 1

/-- The progress percentage written by the pipeline:
`round((i / total) * 100)` (process_scene_queue.py:280, 299). -/
def progressVal (i total : ℕ) : ℤ := pyRound (((i : ℚ) / (total : ℚ)) * 100)

/-- Observable events of one `process_file` run: metadata documents
written to disk, and `describe_image` (inference) invocations. -/
inductive Event where
  | write (path : String) (doc : Doc)
  | infer (img : String)

/-- Truthiness of `scene.get('description')`
(process_scene_queue.py:269). -/
def descTruthy (sc : Doc) : Bool :=
  ((docFind sc "description").getD .null).truthy

/-- The update written before processing scene `i`
(process_scene_queue.py:276-281). -/
def upd1 (i total : ℕ) (mem : List Json) : Doc :=
  [("processingIndex", .num (i : ℚ)),
   ("scenes", .arr mem),
   ("descriptionsComplete", .bool false),
   ("progress", .num ((progressVal i total : ℤ) : ℚ))]

/-- The update written after a scene's description is assigned
(process_scene_queue.py:297-300). -/
def upd2 (i total : ℕ) (mem : List Json) : Doc :=
  [("scenes", .arr mem),
   ("progress", .num ((progressVal (i + 1) total : ℤ) : ℚ))]

/-- The terminal update (process_scene_queue.py:303-308). -/
def updFin (mem : List Json) : Doc :=
  [("processingIndex", .num (-1)),
   ("descriptionsComplete", .bool true),
   ("progress", .num 100),
   ("scenes", .arr mem)]

/-- The `for i, scene in enumerate(scenes)` loop of `process_file`
(process_scene_queue.py:267-300), processing the scenes in `rest` after
those in `done`; the current loop index is `done.length`.  Returns the
final store, the event trace, the final in-memory scenes list, and a flag
that is true when a Python exception escaped (non-dict scene, missing
`screenshotPath` key, or a failing metadata write). -/
def sceneLoop (mp dir : String) (total : ℕ) (oracle : String → String) :
    FS → List Json → List Json → FS × List Event × List Json × Bool
  | fs, done, [] => (fs, [], done, false)
  | fs, done, scene :: rest =>
    match scene with
    | .obj sc =>
      if descTruthy sc then
        sceneLoop mp dir total oracle fs (done ++ [scene]) rest
      else
        match update_metadata fs mp (upd1 done.length total (done ++ scene :: rest)) with
        | none => (fs, [], done ++ scene :: rest, true)
        | some (fs1, d1) =>
          match docFind sc "screenshotPath" with
          | some (.str sp) =>
            let img := joinPath dir (pathName sp)
            let desc : String :=
              if (fs1 img).fileExists then oracle img else "Scene from video"
            let evI : List Event :=
              if (fs1 img).fileExists then [Event.infer img] else []
            let scene' := Json.obj (setKey sc "description" (.str desc))
            match update_metadata fs1 mp
                (upd2 done.length total (done ++ scene' :: rest)) with
            | none => (fs1, Event.write mp d1 :: evI, done ++ scene' :: rest, true)
            | some (fs2, d2) =>
              let r := sceneLoop mp dir total oracle fs2 (done ++ [scene']) rest
              (r.1, Event.write mp d1 :: (evI ++ Event.write mp d2 :: r.2.1),
               r.2.2.1, r.2.2.2)
          | _ => (fs1, [Event.write mp d1], done ++ scene :: rest, true)
    | _ => (fs, [], done ++ scene :: rest, true)

/-- The description pipeline `process_file`
(process_scene_queue.py:246-310).  Returns the final store, the event
trace, and a flag that is true when a Python exception escaped to the
caller (to be caught by the command loop). -/
def process_file (fs : FS) (oracle : String → String) (mp : String) :
    FS × List Event × Bool :=
  match fs mp with
  | .absent => (fs, [], false)
  | .other => (fs, [], true)
  | .jsonDoc metadata =>
    let scenesJ := (docFind metadata "scenes").getD (.arr [])
    if scenesJ.truthy = false then (fs, [], false)
    else
      match scenesJ with
      | .arr xs =>
        let r := sceneLoop mp (parentDir mp) xs.length oracle fs [] xs
        if r.2.2.2 then (r.1, r.2.1, true)
        else
          match update_metadata r.1 mp (updFin r.2.2.1) with
          | none => (r.1, r.2.1, true)
          | some (fs2, d) => (fs2, r.2.1 ++ [Event.write mp d], false)
      | _ => (fs, [], true)

/-- The value `process_file` assigns to one pending scene's `description`,
as a pure function of the initial store (scene screenshots are never
written by the pipeline itself): the fallback string when the screenshot
is missing, the model output otherwise
(process_scene_queue.py:284-294). -/
def procScene (fs0 : FS) (oracle : String → String) (dir : String) : Json → Json
  | .obj sc =>
    if descTruthy sc then .obj sc
    else
      let sp := match docFind sc "screenshotPath" with
        | some (.str sp) => sp
        | _ => ""
      let img := joinPath dir (pathName sp)
      let d := if (fs0 img).fileExists then oracle img else "Scene from video"
      .obj (setKey sc "description" (.str d))
  | j => j

/-- Whether processing a scene triggers a `describe_image` call: it lacks
a truthy description and its screenshot file exists. -/
def needsInfer (fs0 : FS) (dir : String) : Json → Bool
  | .obj sc =>
    if descTruthy sc then false
    else
      match docFind sc "screenshotPath" with
      | some (.str sp) => (fs0 (joinPath dir (pathName sp))).fileExists
      | _ => false
  | _ => false

/-- Number of inference invocations in a trace. -/
def inferCount (evs : List Event) : ℕ :=
  evs.countP fun e => match e with | .infer _ => true | _ => false

/-- The sequence of `progress` values carried by the metadata writes of a
trace, in order. -/
def progressList (evs : List Event) : List ℚ :=
  evs.filterMap fun e =>
    match e with
    | .write _ d =>
      match docFind d "progress" with
      | some (.num q) => some q
      | _ => none
    | _ => none

/-- The `progress` values the loop writes while handling one scene at
index `n`: nothing for a described scene, the pre- and post- values for a
pending one. -/
def sceneBlock (total n : ℕ) : Json → List ℚ
  | .obj sc =>
    if descTruthy sc then []
    else [((progressVal n total : ℤ) : ℚ), ((progressVal (n + 1) total : ℤ) : ℚ)]
  | _ => []

/-- The expected `progress` write sequence for the loop over `rest`
starting at index `n`: each pending scene at index `i` contributes
`round(i/total*100)` then `round((i+1)/total*100)`; described scenes
contribute nothing. -/
def progressSpec (total : ℕ) : ℕ → List Json → List ℚ
  | _, [] => []
  | n, s :: r => sceneBlock total n s ++ progressSpec total (n + 1) r

/-- Well-formedness of one scene record as far as the loop body needs it:
a JSON object which, when pending, carries a string `screenshotPath`
resolving to an image path different from the metadata file itself. -/
def SceneWF (mp dir : String) (s : Json) : Prop :=
  ∃ sc, s = Json.obj sc ∧
    (descTruthy sc = true ∨
      ∃ sp, docFind sc "screenshotPath" = some (.str sp) ∧
        joinPath dir (pathName sp) ≠ mp)

/-- The temporal discipline of C6 relative to the original scenes list
`orig`: wherever an inference event occurs in the trace, the event
immediately before it is a metadata write whose document marks some
pending scene `i` of `orig` as in progress (`processingIndex = i`,
`descriptionsComplete = false`, recomputed `progress`), and the inference
runs on precisely that scene's screenshot. -/
def InferMarked (mp dir : String) (total : ℕ) (orig : List Json)
    (evs : List Event) : Prop :=
  ∀ pre p post, evs = pre ++ Event.infer p :: post →
    ∃ (pre' : List Event) (d : Doc) (i : ℕ) (sc : Doc) (sp : String),
      pre = pre' ++ [Event.write mp d] ∧
      docFind d "processingIndex" = some (.num (i : ℚ)) ∧
      docFind d "descriptionsComplete" = some (.bool false) ∧
      docFind d "progress" = some (.num ((progressVal i total : ℤ) : ℚ)) ∧
      orig[i]? = some (.obj sc) ∧ descTruthy sc = false ∧
      docFind sc "screenshotPath" = some (.str sp) ∧
      p = joinPath dir (pathName sp)

/-- Whitespace for Python `str.strip()`. -/
def isPySpace (c : Char) : Bool :=
  c == ' ' || c == '\t' || c == '\n' || c == '\r' || c == '\x0b' || c == '\x0c'

/-- Python `str.strip()`. -/
def pyStrip (s : String) : String :=
  String.mk (((s.data.dropWhile isPySpace).reverse.dropWhile isPySpace).reverse)

def listStarts : List Char → List Char → Bool
  | _, [] => true
  | [], _ :: _ => false
  | a :: as, b :: bs => a == b && listStarts as bs

/-- Python `str.startswith(pre)`. -/
def strStarts (s pre : String) : Bool := listStarts s.data pre.data

/-- One escaped character of a JSON string literal (quotes and backslashes
only; `json.dumps` escapes control characters too, which no reply in this
development contains). -/
def escapeJsonChar (c : Char) : String :=
  if c = '"' then "\\\"" else if c = '\\' then "\\\\" else String.mk [c]

def escapeJson (s : String) : String := String.join (s.data.map escapeJsonChar)

/-- Python `json.dumps` with its default separators.  Non-integer numbers
are rendered in Lean's rational notation rather than decimal float
notation; no reply a claim inspects contains one. -/
def Json.dumps : Json → String
  | .null => "null"
  | .bool true => "true"
  | .bool false => "false"
  | .num q => if q.den = 1 then toString q.num else toString q
  | .str s => "\"" ++ escapeJson s ++ "\""
  | .arr xs =>
    "[" ++ String.intercalate ", " (xs.attach.map fun x => Json.dumps x.1) ++ "]"
  | .obj kvs =>
    "\x7b" ++ String.intercalate ", " (kvs.attach.map fun p =>
      "\"" ++ escapeJson p.1.1 ++ "\": " ++ Json.dumps p.1.2) ++ "\x7d"
decreasing_by
  · have := List.sizeOf_lt_of_mem x.2
    simp_wf
    omega
  · have h1 := List.sizeOf_lt_of_mem p.2
    obtain ⟨⟨k, v⟩, hp⟩ := p
    simp_wf
    simp at h1
    omega

/-- What the persistent worker holds for scene detection: whether the
TransNetV2 model loaded, and the detector itself (abstracting
`detect_scenes_transnet` plus the real models; `.error` models an
exception raised during detection). -/
structure DetectEnv where
  transnetLoaded : Bool
  detector : String → String → String → Except String (List Json)

/-- One iteration of the persistent command loop: halt, or a reply with
the resulting store, the stdout lines emitted, and how many times the
scene-detector adapter was invoked. -/
inductive StepResult where
  | halt
  | reply (fs : FS) (out : List String) (detectorCalls : ℕ)

/-- The body of `main`'s stdin loop in persistent mode
(process_scene_queue.py:331-366): strip the line; empty or `EXIT` halts;
a `DETECT|`-prefixed line with exactly 4 pipe-separated fields invokes the
detector (exceptions and an unloaded model both yield the empty scene
list); any other field count logs and replies `DETECT_DONE|[]` without
invoking the detector; every other line is treated as a metadata path and
run through `process_file`, whose exceptions are caught, and the loop then
replies `DONE:<line>` unconditionally. -/
def commandStep (env : DetectEnv) (oracle : String → String) (fs : FS)
    (rawLine : String) : StepResult :=
  let line := pyStrip rawLine
  if line = "" ∨ line = "EXIT" then .halt
  else if strStarts line "DETECT|" then
    let parts := splitPipe line
    if parts.length ≠ 4 then .reply fs ["DETECT_DONE|[]"] 0
    else
      if env.transnetLoaded then
        match env.detector (parts.getD 1 "") (parts.getD 2 "") (parts.getD 3 "") with
        | .ok scenes => .reply fs ["DETECT_DONE|" ++ Json.dumps (.arr scenes)] 1
        | .error _ => .reply fs ["DETECT_DONE|" ++ Json.dumps (.arr [])] 1
      else .reply fs ["DETECT_DONE|" ++ Json.dumps (.arr [])] 0
  else
    .reply (process_file fs oracle line).1 ["DONE:" ++ line] 0

/-- What OpenCV reports and decodes for one video path: whether
`VideoCapture.isOpened()` holds, the reported fps, and how many frames
decode sequentially. -/
structure VideoCapture where
  opened : Bool
  fps : ℚ
  decodedFrames : ℕ

/-- Python float `%` for a positive modulus. -/
def qmod (a b : ℚ) : ℚ := a - b * (((a / b).floor : ℤ) : ℚ)

/-- Zero-padding to width 2 (`:02d`). -/
def pad2 (n : ℤ) : String :=
  if 0 ≤ n ∧ n < 10 then "0" ++ toString n else toString n

/-- Zero-padding to width 3 (`:03d`). -/
def pad3 (n : ℤ) : String :=
  if 0 ≤ n ∧ n < 10 then "00" ++ toString n
  else if 0 ≤ n ∧ n < 100 then "0" ++ toString n
  else toString n

/-- `format_timecode` (process_scene_queue.py:110-115):
seconds → `HH:MM:SS.mmm` (the seconds field is `%06.3f`-formatted, here
rendered by rounding to milliseconds). -/
def format_timecode (seconds : ℚ) : String :=
  let hours : ℤ := (seconds / 3600).floor
  let minutes : ℤ := ((qmod seconds 3600) / 60).floor
  let ms : ℤ := pyRound ((qmod seconds 60) * 1000)
  pad2 hours ++ ":" ++ pad2 minutes ++ ":" ++ pad2 (ms / 1000) ++ "." ++
    pad3 (ms % 1000)

/-- Python `pathlib.Path(p).stem`: the final component without its last
suffix (a leading dot does not start a suffix). -/
def pathStem (p : String) : String :=
  let n := pathName p
  match n.data.reverse.dropWhile (fun c => c != '.') with
  | [] => n
  | _ :: rest => if rest = [] then n else String.mk rest.reverse

/-- Python `round(q, 3)`. -/
def round3 (q : ℚ) : ℚ := ((pyRound (q * 1000) : ℤ) : ℚ) / 1000

/-- The scene-detector adapter `detect_scenes_transnet`
(process_scene_queue.py:118-193).  `cap` carries what OpenCV reports for
`video_path`; `sceneStarts` stands for the external TransNetV2 model
(`predict_frames` plus `predictions_to_scenes_with_data` at threshold 0.5),
giving each detected scene's start frame as a function of how many frames
were read.  `.error` models a Python exception escaping the adapter: when
the reported fps is zero, the logging f-string at line 132 evaluates
`total_frames / fps` and raises ZeroDivisionError before any frame is
read.  Screenshot extraction writes image files under `output_dir`; that
side effect is not observed by the returned records, whose paths are
built from `upload_id`. -/
def detect_scenes_transnet (cap : VideoCapture)
    (video_path upload_id output_dir : String)
    (sceneStarts : ℕ → List ℕ) : Except String (List Json) :=
  if cap.opened = false then .ok []
  else if cap.fps = 0 then .error "ZeroDivisionError: float division by zero"
  else if cap.decodedFrames = 0 then .ok []
  else
    .ok (((sceneStarts cap.decodedFrames).enum).map fun p =>
      let timestamp : ℚ := (p.2 : ℚ) / cap.fps
      Json.obj [
        ("timestamp", Json.num (round3 timestamp)),
        ("timecode", Json.str (format_timecode timestamp)),
        ("screenshotPath", Json.str ("/uploads/scenes/" ++ upload_id ++ "/" ++
          pathStem video_path ++ "-Scene-" ++ pad3 ((p.1 : ℤ) + 1) ++ "-01.jpg"))])

/-- A fixed description model output for concrete runs. -/
def wOracle : String → String := fun _ => "a speaker on a stage"

/-- A concrete metadata path, with directory "job". -/
def wMp : String := "job/meta.json"

/-- The concrete screenshot path "img.jpg" resolves to. -/
def wImg : String := "job/img.jpg"

def wScenePending : Json := Json.obj [("screenshotPath", Json.str "img.jpg")]

def wSceneDescribed : Json :=
  Json.obj [("screenshotPath", Json.str "img.jpg"),
            ("description", Json.str "an old shot")]

def wSceneNullDesc : Json :=
  Json.obj [("screenshotPath", Json.str "img.jpg"), ("description", Json.null)]

def wDocPending : Doc := [("scenes", Json.arr [wScenePending])]

def wDocDescribed : Doc := [("scenes", Json.arr [wSceneDescribed])]

def wDocMixed : Doc := [("scenes", Json.arr [wSceneDescribed, wSceneNullDesc])]

/-- Store with the pending metadata file and its screenshot present. -/
def wFsPending : FS := fun p =>
  if p = wMp then .jsonDoc wDocPending
  else if p = wImg then .other else .absent

/-- Store with a fully described metadata file. -/
def wFsDescribed : FS := fun p =>
  if p = wMp then .jsonDoc wDocDescribed else .absent

/-- Store with one described and one null-description scene. -/
def wFsMixed : FS := fun p =>
  if p = wMp then .jsonDoc wDocMixed
  else if p = wImg then .other else .absent

/-- Store with the pending metadata file but no screenshot. -/
def wFsNoImg : FS := fun p =>
  if p = wMp then .jsonDoc wDocPending else .absent

/-- An empty store. -/
def wFsEmpty : FS := fun _ => .absent

def wEnv : DetectEnv := ⟨true, fun _ _ _ => .ok []⟩

@[simp] theorem find_setKey_self (d : Doc) (k : String) (v : Json) :
    docFind (setKey d k v) k = some v := by
  induction d with
  | nil => simp [setKey, docFind]
  | cons p rest ih =>
    obtain ⟨k', v'⟩ := p
    by_cases h : k' = k
    · simp [setKey, h, docFind]
    · simp [setKey, h, docFind, ih]

theorem find_setKey_ne (d : Doc) (k k' : String) (v : Json) (h : k' ≠ k) :
    docFind (setKey d k v) k' = docFind d k' := by
  have hk : ¬k = k' := fun hh => h hh.symm
  induction d with
  | nil => simp [setKey, docFind, hk]
  | cons p rest ih =>
    obtain ⟨k0, v0⟩ := p
    by_cases h0 : k0 = k
    · rw [setKey, if_pos h0, docFind_cons, docFind_cons, if_neg hk,
        if_neg (by rw [h0]; exact hk)]
    · rw [setKey, if_neg h0, docFind_cons, docFind_cons]
      by_cases h1 : k0 = k'
      · rw [if_pos h1, if_pos h1]
      · rw [if_neg h1, if_neg h1, ih]

theorem find_dictUpdate_of_not_mem (d : Doc) (u : Doc) (k : String)
    (h : docFind u k = none) : docFind (dictUpdate d u) k = docFind d k := by
  induction u generalizing d with
  | nil => rfl
  | cons p rest ih =>
    obtain ⟨k0, v0⟩ := p
    rw [docFind_cons] at h
    by_cases hp : k0 = k
    · simp [hp] at h
    · rw [if_neg hp] at h
      rw [dictUpdate, ih (setKey d k0 v0) h, find_setKey_ne]
      intro hh; exact hp hh.symm

theorem docFind_eq_none_of_not_mem (d : Doc) (k : String)
    (h : k ∉ d.map Prod.fst) : docFind d k = none := by
  induction d with
  | nil => rfl
  | cons p rest ih =>
    obtain ⟨k0, v0⟩ := p
    simp only [List.map_cons, List.mem_cons, not_or] at h
    rw [docFind_cons, if_neg (fun hh => h.1 hh.symm), ih h.2]

theorem find_dictUpdate_of_mem (d : Doc) (u : Doc) (k : String) (v : Json)
    (hnd : (u.map Prod.fst).Nodup) (h : docFind u k = some v) :
    docFind (dictUpdate d u) k = some v := by
  induction u generalizing d with
  | nil => simp at h
  | cons p rest ih =>
    obtain ⟨k0, v0⟩ := p
    rw [docFind_cons] at h
    rw [List.map_cons, List.nodup_cons] at hnd
    by_cases hp : k0 = k
    · subst hp
      rw [if_pos rfl] at h
      injection h with h'
      subst h'
      rw [dictUpdate, find_dictUpdate_of_not_mem _ _ _
        (docFind_eq_none_of_not_mem rest k0 hnd.1), find_setKey_self]
    · rw [if_neg hp] at h
      rw [dictUpdate]
      exact ih (setKey d k0 v0) hnd.2 h

theorem update_metadata_eq (fs : FS) (path : String) (updates : Doc) (D : Doc)
    (hD : fs path = .jsonDoc D) :
    update_metadata fs path updates =
      some (Function.update fs path (.jsonDoc (dictUpdate D updates)),
            dictUpdate D updates) := by
  unfold update_metadata
  rw [hD]

/-- C1: a single `update_metadata` call rewrites the file to the on-disk
document `D` read immediately before merging, with the update's keys
overlaid and every other key unchanged; no other path of the store is
touched, so fields written to the file by another writer between this
worker's calls are preserved. -/
theorem update_metadata_overlay (fs : FS) (path : String) (D U : Doc)
    (hD : fs path = .jsonDoc D) (hU : (U.map Prod.fst).Nodup) :
    ∃ fs' merged, update_metadata fs path U = some (fs', merged) ∧
      merged = dictUpdate D U ∧
      fs' path = .jsonDoc merged ∧
      (∀ k v, docFind U k = some v → docFind merged k = some v) ∧
      (∀ k, docFind U k = none → docFind merged k = docFind D k) ∧
      (∀ p, p ≠ path → fs' p = fs p) := by
  refine ⟨_, _, update_metadata_eq fs path U D hD, rfl,
    Function.update_same path _ fs, ?_, ?_, ?_⟩
  · intro k v hk
    exact find_dictUpdate_of_mem D U k v hU hk
  · intro k hk
    exact find_dictUpdate_of_not_mem D U k hk
  · intro p hp
    exact Function.update_noteq hp _ fs

/-- Witness for C1 at a concrete store: the file at "meta.json" holds
`\x7b"a": 1, "b": 2, "x": 9\x7d` (the `"x"` field standing for a field
written by another process), and the update `\x7b"b": 3, "c": 4\x7d`
overlays only its own keys. -/
theorem update_metadata_overlay_witness :
    ∃ fs' merged,
      update_metadata
        (fun p => if p = "meta.json" then
            .jsonDoc [("a", .num 1), ("b", .num 2), ("x", .num 9)] else .absent)
        "meta.json" [("b", .num 3), ("c", .num 4)] = some (fs', merged) ∧
      merged = dictUpdate [("a", .num 1), ("b", .num 2), ("x", .num 9)]
        [("b", .num 3), ("c", .num 4)] ∧
      fs' "meta.json" = .jsonDoc merged ∧
      (∀ k v, docFind [("b", .num 3), ("c", .num 4)] k = some v →
        docFind merged k = some v) ∧
      (∀ k, docFind [("b", .num 3), ("c", .num 4)] k = none →
        docFind merged k = docFind [("a", .num 1), ("b", .num 2), ("x", .num 9)] k) ∧
      (∀ p, p ≠ "meta.json" → fs' p = (fun p => if p = "meta.json" then
            .jsonDoc [("a", .num 1), ("b", .num 2), ("x", .num 9)] else .absent) p) :=
  update_metadata_overlay _ "meta.json" _ _ (by simp) (by simp)

theorem pyRound_intCast (n : ℤ) : pyRound (n : ℚ) = n := by
  unfold pyRound
  norm_num

theorem le_pyRound (q : ℚ) : ⌊q⌋ ≤ pyRound q := by
  unfold pyRound
  split
  · exact le_refl _
  · split
    · omega
    · split <;> omega

theorem pyRound_le (q : ℚ) : pyRound q ≤ ⌊q⌋ + 1 := by
  unfold pyRound
  split
  · omega
  · split
    · omega
    · split <;> omega

theorem pyRound_eq_add_one (q : ℚ)
    (h : 1/2 < q - (⌊q⌋ : ℚ) ∨ (q - (⌊q⌋ : ℚ) = 1/2 ∧ ¬⌊q⌋ % 2 = 0)) :
    pyRound q = ⌊q⌋ + 1 := by
  unfold pyRound
  rcases h with h | ⟨h1, h2⟩
  · rw [if_neg (by linarith), if_pos h]
  · rw [if_neg (by linarith), if_neg (by linarith), if_neg h2]

theorem pyRound_mono {q r : ℚ} (h : q ≤ r) : pyRound q ≤ pyRound r := by
  have hf : ⌊q⌋ ≤ ⌊r⌋ := Int.floor_le_floor h
  rcases lt_or_eq_of_le hf with hlt | heq
  · calc pyRound q ≤ ⌊q⌋ + 1 := pyRound_le q
      _ ≤ ⌊r⌋ := by omega
      _ ≤ pyRound r := le_pyRound r
  · have hcast : ((⌊q⌋ : ℚ)) = ((⌊r⌋ : ℚ)) := by exact_mod_cast heq
    by_cases h1 : q - (⌊q⌋ : ℚ) < 1/2
    · have hq : pyRound q = ⌊q⌋ := by unfold pyRound; rw [if_pos h1]
      rw [hq, heq]
      exact le_pyRound r
    · push_neg at h1
      by_cases h2 : (1 : ℚ)/2 < q - (⌊q⌋ : ℚ)
      · have hq : pyRound q = ⌊q⌋ + 1 := pyRound_eq_add_one q (Or.inl h2)
        have hr : pyRound r = ⌊r⌋ + 1 :=
          pyRound_eq_add_one r (Or.inl (by linarith))
        omega
      · push_neg at h2
        have h3 : q - (⌊q⌋ : ℚ) = 1/2 := le_antisymm h2 h1
        by_cases h4 : ⌊q⌋ % 2 = 0
        · have hq : pyRound q = ⌊q⌋ := by
            unfold pyRound
            rw [if_neg (by linarith), if_neg (by linarith), if_pos h4]
          rw [hq, heq]
          exact le_pyRound r
        · have hq : pyRound q = ⌊q⌋ + 1 := pyRound_eq_add_one q (Or.inr ⟨h3, h4⟩)
          have h5 : (1 : ℚ)/2 ≤ r - (⌊r⌋ : ℚ) := by linarith
          rcases lt_or_eq_of_le h5 with h6 | h6
          · have hr : pyRound r = ⌊r⌋ + 1 := pyRound_eq_add_one r (Or.inl h6)
            omega
          · have hr : pyRound r = ⌊r⌋ + 1 :=
              pyRound_eq_add_one r (Or.inr ⟨h6.symm, by omega⟩)
            omega

theorem progressVal_mono {total : ℕ} (ht : 0 < total) {i j : ℕ} (h : i ≤ j) :
    progressVal i total ≤ progressVal j total := by
  apply pyRound_mono
  have htq : (0 : ℚ) < (total : ℚ) := by exact_mod_cast ht
  have hij : (i : ℚ) ≤ (j : ℚ) := by exact_mod_cast h
  have hdiv : (i : ℚ) / (total : ℚ) ≤ (j : ℚ) / (total : ℚ) := by gcongr
  nlinarith

theorem progressVal_total (total : ℕ) (ht : 0 < total) :
    progressVal total total = 100 := by
  unfold progressVal
  have hne : ((total : ℚ)) ≠ 0 := by positivity
  rw [div_self hne, one_mul]
  have h100 : ((100 : ℤ) : ℚ) = (100 : ℚ) := by norm_num
  rw [← h100, pyRound_intCast]

theorem progressVal_le_100 {total : ℕ} (ht : 0 < total) {i : ℕ} (h : i ≤ total) :
    progressVal i total ≤ 100 := by
  calc progressVal i total ≤ progressVal total total := progressVal_mono ht h
    _ = 100 := progressVal_total total ht

theorem inferMarked_nil (mp dir : String) (total : ℕ) (orig : List Json) :
    InferMarked mp dir total orig [] := by
  intro pre p post h
  exact absurd h.symm (by simp)

theorem inferMarked_cons_write (mp dir : String) (total : ℕ) (orig : List Json)
    (evs : List Event) (p0 : String) (d0 : Doc)
    (h : InferMarked mp dir total orig evs) :
    InferMarked mp dir total orig (Event.write p0 d0 :: evs) := by
  intro pre p post hpre
  cases pre with
  | nil =>
    rw [List.nil_append] at hpre
    injection hpre with h1 _
    exact Event.noConfusion h1
  | cons e pre' =>
    rw [List.cons_append] at hpre
    injection hpre with h1 h2
    obtain ⟨pre'', d, i, sc, sp, hsplit, hprops⟩ := h pre' p post h2
    exact ⟨e :: pre'', d, i, sc, sp, by rw [hsplit, List.cons_append], hprops⟩

theorem inferMarked_cons_mark (mp dir : String) (total : ℕ) (orig : List Json)
    (evs : List Event) (d1 : Doc) (img : String)
    (hmark : ∃ (i : ℕ) (sc : Doc) (sp : String),
      docFind d1 "processingIndex" = some (.num (i : ℚ)) ∧
      docFind d1 "descriptionsComplete" = some (.bool false) ∧
      docFind d1 "progress" = some (.num ((progressVal i total : ℤ) : ℚ)) ∧
      orig[i]? = some (.obj sc) ∧ descTruthy sc = false ∧
      docFind sc "screenshotPath" = some (.str sp) ∧
      img = joinPath dir (pathName sp))
    (h : InferMarked mp dir total orig evs) :
    InferMarked mp dir total orig
      (Event.write mp d1 :: Event.infer img :: evs) := by
  intro pre p post hpre
  cases pre with
  | nil =>
    rw [List.nil_append] at hpre
    injection hpre with h1 _
    exact Event.noConfusion h1
  | cons e pre' =>
    rw [List.cons_append] at hpre
    injection hpre with h1 h2
    subst h1
    cases pre' with
    | nil =>
      rw [List.nil_append] at h2
      injection h2 with h3 h4
      obtain ⟨i, sc, sp, hp1, hp2, hp3, hp4, hp5, hp6, hp7⟩ := hmark
      refine ⟨[], d1, i, sc, sp, by simp, hp1, hp2, hp3, hp4, hp5, hp6, ?_⟩
      have himg : img = p := by injection h3
      rw [← himg, hp7]
    | cons e2 pre'' =>
      rw [List.cons_append] at h2
      injection h2 with h3 h4
      subst h3
      obtain ⟨pre3, d, i, sc, sp, hsplit, hprops⟩ := h pre'' p post h4
      exact ⟨Event.write mp d1 :: Event.infer img :: pre3, d, i, sc, sp,
        by rw [hsplit]; simp, hprops⟩

theorem sceneLoop_skip (mp dir : String) (total : ℕ) (oracle : String → String)
    (fs : FS) (done rest : List Json) (sc : Doc) (ht : descTruthy sc = true) :
    sceneLoop mp dir total oracle fs done (Json.obj sc :: rest) =
      sceneLoop mp dir total oracle fs (done ++ [Json.obj sc]) rest := by
  simp only [sceneLoop, ht, if_true]

theorem upd1_find_processingIndex (i total : ℕ) (mem : List Json) :
    docFind (upd1 i total mem) "processingIndex" = some (.num (i : ℚ)) := by
  simp [upd1, docFind]

theorem upd1_find_descriptionsComplete (i total : ℕ) (mem : List Json) :
    docFind (upd1 i total mem) "descriptionsComplete" = some (.bool false) := by
  simp [upd1, docFind]

theorem upd1_find_progress (i total : ℕ) (mem : List Json) :
    docFind (upd1 i total mem) "progress" =
      some (.num ((progressVal i total : ℤ) : ℚ)) := by
  simp [upd1, docFind]

theorem upd1_keys_nodup (i total : ℕ) (mem : List Json) :
    (((upd1 i total mem).map Prod.fst)).Nodup := by
  simp [upd1]

theorem upd2_find_progress (i total : ℕ) (mem : List Json) :
    docFind (upd2 i total mem) "progress" =
      some (.num ((progressVal (i + 1) total : ℤ) : ℚ)) := by
  simp [upd2, docFind]

theorem upd2_keys_nodup (i total : ℕ) (mem : List Json) :
    (((upd2 i total mem).map Prod.fst)).Nodup := by
  simp [upd2]

theorem updFin_keys_nodup (mem : List Json) :
    (((updFin mem).map Prod.fst)).Nodup := by
  simp [updFin]

theorem updFin_find_processingIndex (mem : List Json) :
    docFind (updFin mem) "processingIndex" = some (.num (-1)) := by
  simp [updFin, docFind]

theorem updFin_find_descriptionsComplete (mem : List Json) :
    docFind (updFin mem) "descriptionsComplete" = some (.bool true) := by
  simp [updFin, docFind]

theorem updFin_find_progress (mem : List Json) :
    docFind (updFin mem) "progress" = some (.num 100) := by
  simp [updFin, docFind]

theorem updFin_find_scenes (mem : List Json) :
    docFind (updFin mem) "scenes" = some (.arr mem) := by
  simp [updFin, docFind]

theorem inferCount_cons_write (p : String) (d : Doc) (evs : List Event) :
    inferCount (Event.write p d :: evs) = inferCount evs := by
  simp [inferCount, List.countP_cons]

theorem inferCount_cons_infer (p : String) (evs : List Event) :
    inferCount (Event.infer p :: evs) = inferCount evs + 1 := by
  simp [inferCount, List.countP_cons]

theorem inferCount_append (a b : List Event) :
    inferCount (a ++ b) = inferCount a + inferCount b := by
  simp [inferCount, List.countP_append]

theorem progressList_cons_write (p : String) (d : Doc) (evs : List Event) {q : ℚ}
    (h : docFind d "progress" = some (.num q)) :
    progressList (Event.write p d :: evs) = q :: progressList evs := by
  simp [progressList, List.filterMap_cons, h]

theorem progressList_cons_infer (p : String) (evs : List Event) :
    progressList (Event.infer p :: evs) = progressList evs := by
  simp [progressList, List.filterMap_cons]

theorem progressList_append (a b : List Event) :
    progressList (a ++ b) = progressList a ++ progressList b := by
  simp [progressList, List.filterMap_append]

/-- Master characterisation of the scene loop: under per-scene
well-formedness and with the metadata file present as a JSON object, the
loop never raises, rewrites only the metadata path, produces the
pointwise-described scenes list, performs one inference per pending scene
with an existing screenshot, writes the expected progress sequence, never
infers on a missing image, and obeys the mark-before-infer discipline. -/
theorem sceneLoop_spec (mp dir : String) (total : ℕ) (oracle : String → String)
    (fs0 : FS) (orig : List Json) (rest : List Json) :
    ∀ (done : List Json) (fs : FS) (cur : Doc),
      fs mp = .jsonDoc cur →
      (∀ p, p ≠ mp → fs p = fs0 p) →
      (∀ s ∈ rest, SceneWF mp dir s) →
      (∀ k, orig[done.length + k]? = rest[k]?) →
      ∃ (fs' : FS) (evs : List Event) (cur' : Doc),
        sceneLoop mp dir total oracle fs done rest =
          (fs', evs, done ++ rest.map (procScene fs0 oracle dir), false) ∧
        fs' mp = .jsonDoc cur' ∧
        (∀ p, p ≠ mp → fs' p = fs0 p) ∧
        inferCount evs = rest.countP (needsInfer fs0 dir) ∧
        progressList evs = progressSpec total done.length rest ∧
        (∀ p, Event.infer p ∈ evs → (fs0 p).fileExists = true) ∧
        InferMarked mp dir total orig evs := by
  induction rest with
  | nil =>
    intro done fs cur hcur hfs _ _
    refine ⟨fs, [], cur, by simp [sceneLoop], hcur, hfs, rfl, rfl, ?_,
      inferMarked_nil mp dir total orig⟩
    intro p hp
    exact absurd hp (List.not_mem_nil _)
  | cons scene rest ih =>
    intro done fs cur hcur hfs hwf hIdx
    obtain ⟨sc, rfl, hcase⟩ := hwf _ (List.mem_cons_self _ _)
    have hwf' : ∀ s ∈ rest, SceneWF mp dir s :=
      fun s hs => hwf s (List.mem_cons_of_mem _ hs)
    have hhead : orig[done.length]? = some (Json.obj sc) := by
      have h := hIdx 0
      simpa using h
    by_cases ht : descTruthy sc
    · -- already described: the scene is skipped unchanged
      have hIdx' : ∀ k, orig[(done ++ [Json.obj sc]).length + k]? = rest[k]? := by
        intro k
        have h := hIdx (k + 1)
        simp only [List.getElem?_cons_succ] at h
        rw [List.length_append]
        simpa [Nat.add_assoc, Nat.add_comm 1 k] using h
      obtain ⟨fs', evs, cur', heq, h1, h2, h3, h4, h5, h6⟩ :=
        ih (done ++ [Json.obj sc]) fs cur hcur hfs hwf' hIdx'
      refine ⟨fs', evs, cur', ?_, h1, h2, ?_, ?_, h5, h6⟩
      · rw [sceneLoop_skip mp dir total oracle fs done rest sc ht, heq]
        simp [procScene, ht]
      · rw [h3, List.countP_cons]
        simp [needsInfer, ht]
      · rw [h4, progressSpec]
        simp [sceneBlock, ht, List.length_append]
    · -- pending: the scene is processed
      rw [Bool.not_eq_true] at ht
      rcases hcase with hT | ⟨sp, hsp, hne⟩
      · rw [ht] at hT
        exact absurd hT (by simp)
      have hfsimg : fs (joinPath dir (pathName sp)) = fs0 (joinPath dir (pathName sp)) :=
        hfs _ hne
      have hupd1 := update_metadata_eq fs mp
        (upd1 done.length total (done ++ Json.obj sc :: rest)) cur hcur
      simp only [sceneLoop, ht, Bool.false_eq_true, if_false, hupd1, hsp]
      simp only [Function.update_noteq hne, hfsimg]
      set D1 := dictUpdate cur (upd1 done.length total (done ++ Json.obj sc :: rest))
        with hD1
      have hD1prog : docFind D1 "progress" =
          some (Json.num ((progressVal done.length total : ℤ) : ℚ)) := by
        rw [hD1]
        exact find_dictUpdate_of_mem _ _ _ _ (upd1_keys_nodup _ _ _)
          (upd1_find_progress _ _ _)
      cases hex : (fs0 (joinPath dir (pathName sp))).fileExists with
      | false =>
        simp only [Bool.false_eq_true, if_false, List.nil_append]
        set scn := Json.obj (setKey sc "description" (Json.str "Scene from video"))
          with hscn
        have hupd2 := update_metadata_eq
          (Function.update fs mp (FileContent.jsonDoc D1)) mp
          (upd2 done.length total (done ++ scn :: rest)) D1
          (Function.update_same mp _ fs)
        simp only [hupd2]
        set D2 := dictUpdate D1 (upd2 done.length total (done ++ scn :: rest)) with hD2
        have hD2prog : docFind D2 "progress" =
            some (Json.num ((progressVal (done.length + 1) total : ℤ) : ℚ)) := by
          rw [hD2]
          exact find_dictUpdate_of_mem _ _ _ _ (upd2_keys_nodup _ _ _)
            (upd2_find_progress _ _ _)
        have hfs2 : ∀ p, p ≠ mp →
            Function.update (Function.update fs mp (FileContent.jsonDoc D1)) mp
              (FileContent.jsonDoc D2) p = fs0 p := by
          intro p hp
          rw [Function.update_noteq hp, Function.update_noteq hp]
          exact hfs p hp
        have hIdx' : ∀ k, orig[(done ++ [scn]).length + k]? = rest[k]? := by
          intro k
          have h := hIdx (k + 1)
          simp only [List.getElem?_cons_succ] at h
          rw [List.length_append]
          simpa [Nat.add_assoc, Nat.add_comm 1 k] using h
        obtain ⟨fs', evs, cur', heq, h1, h2, h3, h4, h5, h6⟩ :=
          ih (done ++ [scn])
            (Function.update (Function.update fs mp (FileContent.jsonDoc D1)) mp
              (FileContent.jsonDoc D2)) D2
            (Function.update_same mp _ _) hfs2 hwf' hIdx'
        rw [heq]
        refine ⟨fs', Event.write mp D1 :: Event.write mp D2 :: evs, cur',
          ?_, h1, h2, ?_, ?_, ?_, ?_⟩
        · rw [hscn]
          simp [procScene, ht, hsp, hex]
        · rw [inferCount_cons_write, inferCount_cons_write, h3, List.countP_cons]
          simp [needsInfer, ht, hsp, hex]
        · rw [progressList_cons_write _ _ _ hD1prog,
            progressList_cons_write _ _ _ hD2prog, h4]
          rw [show (done ++ [scn]).length = done.length + 1 by simp]
          simp [progressSpec, sceneBlock, ht]
        · intro p hp
          simp only [List.mem_cons] at hp
          rcases hp with h | h | h
          · exact Event.noConfusion h
          · exact Event.noConfusion h
          · exact h5 p h
        · exact inferMarked_cons_write mp dir total orig _ mp D1
            (inferMarked_cons_write mp dir total orig evs mp D2 h6)
      | true =>
        simp only [eq_self_iff_true, if_true, List.singleton_append]
        set scn := Json.obj (setKey sc "description"
          (Json.str (oracle (joinPath dir (pathName sp))))) with hscn
        have hupd2 := update_metadata_eq
          (Function.update fs mp (FileContent.jsonDoc D1)) mp
          (upd2 done.length total (done ++ scn :: rest)) D1
          (Function.update_same mp _ fs)
        simp only [hupd2]
        set D2 := dictUpdate D1 (upd2 done.length total (done ++ scn :: rest)) with hD2
        have hD2prog : docFind D2 "progress" =
            some (Json.num ((progressVal (done.length + 1) total : ℤ) : ℚ)) := by
          rw [hD2]
          exact find_dictUpdate_of_mem _ _ _ _ (upd2_keys_nodup _ _ _)
            (upd2_find_progress _ _ _)
        have hD1pi : docFind D1 "processingIndex" =
            some (Json.num ((done.length : ℕ) : ℚ)) := by
          rw [hD1]
          exact find_dictUpdate_of_mem _ _ _ _ (upd1_keys_nodup _ _ _)
            (upd1_find_processingIndex _ _ _)
        have hD1dc : docFind D1 "descriptionsComplete" = some (Json.bool false) := by
          rw [hD1]
          exact find_dictUpdate_of_mem _ _ _ _ (upd1_keys_nodup _ _ _)
            (upd1_find_descriptionsComplete _ _ _)
        have hfs2 : ∀ p, p ≠ mp →
            Function.update (Function.update fs mp (FileContent.jsonDoc D1)) mp
              (FileContent.jsonDoc D2) p = fs0 p := by
          intro p hp
          rw [Function.update_noteq hp, Function.update_noteq hp]
          exact hfs p hp
        have hIdx' : ∀ k, orig[(done ++ [scn]).length + k]? = rest[k]? := by
          intro k
          have h := hIdx (k + 1)
          simp only [List.getElem?_cons_succ] at h
          rw [List.length_append]
          simpa [Nat.add_assoc, Nat.add_comm 1 k] using h
        obtain ⟨fs', evs, cur', heq, h1, h2, h3, h4, h5, h6⟩ :=
          ih (done ++ [scn])
            (Function.update (Function.update fs mp (FileContent.jsonDoc D1)) mp
              (FileContent.jsonDoc D2)) D2
            (Function.update_same mp _ _) hfs2 hwf' hIdx'
        rw [heq]
        refine ⟨fs', Event.write mp D1 :: Event.infer (joinPath dir (pathName sp)) ::
          Event.write mp D2 :: evs, cur', ?_, h1, h2, ?_, ?_, ?_, ?_⟩
        · rw [hscn]
          simp [procScene, ht, hsp, hex]
        · rw [inferCount_cons_write, inferCount_cons_infer, inferCount_cons_write,
            h3, List.countP_cons]
          simp [needsInfer, ht, hsp, hex]
        · rw [progressList_cons_write _ _ _ hD1prog, progressList_cons_infer,
            progressList_cons_write _ _ _ hD2prog, h4]
          rw [show (done ++ [scn]).length = done.length + 1 by simp]
          simp [progressSpec, sceneBlock, ht]
        · intro p hp
          simp only [List.mem_cons] at hp
          rcases hp with h | h | h | h
          · exact Event.noConfusion h
          · have : p = joinPath dir (pathName sp) := by injection h
            rw [this]
            exact hex
          · exact Event.noConfusion h
          · exact h5 p h
        · exact inferMarked_cons_mark mp dir total orig (Event.write mp D2 :: evs) D1
            (joinPath dir (pathName sp))
            ⟨done.length, sc, sp, hD1pi, hD1dc, hD1prog, hhead, ht, hsp, rfl⟩
            (inferMarked_cons_write mp dir total orig evs mp D2 h6)

/-- Characterisation of a full `process_file` run on a present,
well-formed metadata file with a non-empty scenes list. -/
theorem process_file_spec (fs : FS) (oracle : String → String) (mp : String)
    (D : Doc) (scenes : List Json)
    (hD : fs mp = .jsonDoc D)
    (hS : docFind D "scenes" = some (.arr scenes))
    (hne : scenes ≠ [])
    (hwf : ∀ s ∈ scenes, SceneWF mp (parentDir mp) s) :
    ∃ (fs' : FS) (evs : List Event) (dfin : Doc),
      process_file fs oracle mp = (fs', evs ++ [Event.write mp dfin], false) ∧
      fs' mp = .jsonDoc dfin ∧
      (∀ p, p ≠ mp → fs' p = fs p) ∧
      docFind dfin "processingIndex" = some (.num (-1)) ∧
      docFind dfin "descriptionsComplete" = some (.bool true) ∧
      docFind dfin "progress" = some (.num 100) ∧
      docFind dfin "scenes" =
        some (.arr (scenes.map (procScene fs oracle (parentDir mp)))) ∧
      inferCount evs = scenes.countP (needsInfer fs (parentDir mp)) ∧
      progressList evs = progressSpec scenes.length 0 scenes ∧
      (∀ p, Event.infer p ∈ evs → (fs p).fileExists = true) ∧
      InferMarked mp (parentDir mp) scenes.length scenes evs := by
  obtain ⟨s0, ss, rfl⟩ : ∃ s0 ss, scenes = s0 :: ss := by
    cases scenes with
    | nil => exact absurd rfl hne
    | cons a l => exact ⟨a, l, rfl⟩
  obtain ⟨fs', evs, cur', heq, h1, h2, h3, h4, h5, h6⟩ :=
    sceneLoop_spec mp (parentDir mp) (s0 :: ss).length oracle fs (s0 :: ss)
      (s0 :: ss) [] fs D hD (fun p _ => rfl) hwf (by simp)
  simp only [process_file, hD, hS, Option.getD_some, Json.truthy,
    Bool.true_eq_false, if_false]
  rw [heq]
  simp only [List.nil_append]
  have hupdF := update_metadata_eq fs' mp
    (updFin (List.map (procScene fs oracle (parentDir mp)) (s0 :: ss))) cur' h1
  simp only [hupdF]
  refine ⟨Function.update fs' mp (FileContent.jsonDoc (dictUpdate cur'
      (updFin (List.map (procScene fs oracle (parentDir mp)) (s0 :: ss))))),
    evs, dictUpdate cur' (updFin (List.map (procScene fs oracle (parentDir mp))
      (s0 :: ss))),
    rfl, Function.update_same mp _ fs', ?_, ?_, ?_, ?_, ?_, h3, ?_, h5, h6⟩
  · intro p hp
    rw [Function.update_noteq hp]
    exact h2 p hp
  · exact find_dictUpdate_of_mem _ _ _ _ (updFin_keys_nodup _)
      (updFin_find_processingIndex _)
  · exact find_dictUpdate_of_mem _ _ _ _ (updFin_keys_nodup _)
      (updFin_find_descriptionsComplete _)
  · exact find_dictUpdate_of_mem _ _ _ _ (updFin_keys_nodup _)
      (updFin_find_progress _)
  · exact find_dictUpdate_of_mem _ _ _ _ (updFin_keys_nodup _)
      (updFin_find_scenes _)
  · rw [h4]
    simp

theorem progressSpec_lower (total : ℕ) (ht : 0 < total) :
    ∀ (rest : List Json) (n : ℕ), n + rest.length ≤ total →
      ∀ x ∈ progressSpec total n rest ++ [(100 : ℚ)],
        ((progressVal n total : ℤ) : ℚ) ≤ x := by
  intro rest
  induction rest with
  | nil =>
    intro n hn x hx
    simp only [progressSpec, List.nil_append, List.mem_singleton] at hx
    subst hx
    exact_mod_cast progressVal_le_100 ht (by simpa using hn)
  | cons s r ihr =>
    intro n hn x hx
    have hn' : n + 1 + r.length ≤ total := by
      simp only [List.length_cons] at hn
      omega
    have hmono : ((progressVal n total : ℤ) : ℚ) ≤
        ((progressVal (n + 1) total : ℤ) : ℚ) := by
      exact_mod_cast progressVal_mono ht (Nat.le_succ n)
    rw [progressSpec, List.append_assoc] at hx
    rcases List.mem_append.mp hx with hblk | htl
    · cases s with
      | obj sc =>
        by_cases hts : descTruthy sc
        · simp [sceneBlock, hts] at hblk
        · simp only [sceneBlock, hts, Bool.false_eq_true, if_false, List.mem_cons,
            List.not_mem_nil, or_false] at hblk
          rcases hblk with rfl | rfl
          · exact le_refl _
          · exact hmono
      | null => simp [sceneBlock] at hblk
      | bool b => simp [sceneBlock] at hblk
      | num q => simp [sceneBlock] at hblk
      | str st => simp [sceneBlock] at hblk
      | arr xs => simp [sceneBlock] at hblk
    · exact le_trans hmono (ihr (n + 1) hn' x htl)

theorem progressSpec_chain (total : ℕ) (ht : 0 < total) :
    ∀ (rest : List Json) (n : ℕ), n + rest.length ≤ total →
      List.Chain' (· ≤ ·) (progressSpec total n rest ++ [(100 : ℚ)]) := by
  intro rest
  induction rest with
  | nil =>
    intro n _
    simp [progressSpec]
  | cons s r ihr =>
    intro n hn
    have hn' : n + 1 + r.length ≤ total := by
      simp only [List.length_cons] at hn
      omega
    have hch := ihr (n + 1) hn'
    rw [progressSpec, List.append_assoc]
    cases s with
    | obj sc =>
      by_cases hts : descTruthy sc
      · simpa [sceneBlock, hts] using hch
      · simp only [sceneBlock, hts, Bool.false_eq_true, if_false, List.cons_append,
          List.nil_append]
        refine List.chain'_cons.mpr ⟨?_, ?_⟩
        · exact_mod_cast progressVal_mono ht (Nat.le_succ n)
        · refine List.chain'_cons'.mpr ⟨?_, hch⟩
          intro y hy
          exact progressSpec_lower total ht r (n + 1) hn' y (List.mem_of_mem_head? hy)
    | null => simpa [sceneBlock] using hch
    | bool b => simpa [sceneBlock] using hch
    | num q => simpa [sceneBlock] using hch
    | str st => simpa [sceneBlock] using hch
    | arr xs => simpa [sceneBlock] using hch

theorem inferMarked_append_write (mp dir : String) (total : ℕ) (orig : List Json)
    (evs : List Event) (p0 : String) (d0 : Doc)
    (h : InferMarked mp dir total orig evs) :
    InferMarked mp dir total orig (evs ++ [Event.write p0 d0]) := by
  intro pre p post hpre
  rcases List.eq_nil_or_concat post with rfl | ⟨post', z, rfl⟩
  · obtain ⟨h1, h2⟩ := List.append_inj' hpre rfl
    injection h2 with h3 _
    exact Event.noConfusion h3
  · have h2 : evs ++ [Event.write p0 d0] = (pre ++ Event.infer p :: post') ++ [z] := by
      rw [hpre]
      simp
    obtain ⟨h3, _⟩ := List.append_inj' h2 rfl
    exact h pre p post' h3

/-- C2: on a metadata file whose scenes list has N ≥ 1 entries, none with
a truthy description, each a JSON object carrying a string
`screenshotPath` whose resolved image path exists (and differs from the
metadata path), `process_file` performs exactly N inference invocations,
the sequence of `progress` values written to the file is monotonically
non-decreasing and ends at 100, and the final written document has
`processingIndex = -1` and `descriptionsComplete = true`. -/
theorem process_file_fresh_run (fs : FS) (oracle : String → String) (mp : String)
    (D : Doc) (scenes : List Json)
    (hD : fs mp = .jsonDoc D)
    (hS : docFind D "scenes" = some (.arr scenes))
    (hne : scenes ≠ [])
    (hwf : ∀ s ∈ scenes, ∃ sc, s = Json.obj sc ∧ descTruthy sc = false ∧
      ∃ sp, docFind sc "screenshotPath" = some (.str sp) ∧
        joinPath (parentDir mp) (pathName sp) ≠ mp ∧
        (fs (joinPath (parentDir mp) (pathName sp))).fileExists = true) :
    ∃ (fs' : FS) (T : List Event) (d : Doc),
      process_file fs oracle mp = (fs', T, false) ∧
      inferCount T = scenes.length ∧
      List.Chain' (· ≤ ·) (progressList T) ∧
      (progressList T).getLast? = some 100 ∧
      fs' mp = .jsonDoc d ∧
      docFind d "processingIndex" = some (.num (-1)) ∧
      docFind d "descriptionsComplete" = some (.bool true) ∧
      docFind d "progress" = some (.num 100) := by
  have hwf' : ∀ s ∈ scenes, SceneWF mp (parentDir mp) s := by
    intro s hs
    obtain ⟨sc, rfl, _, sp, hsp, hnemp, _⟩ := hwf s hs
    exact ⟨sc, rfl, Or.inr ⟨sp, hsp, hnemp⟩⟩
  obtain ⟨fs', evs, dfin, hrun, hmp, _, hpi, hdc, hprog, _, hcnt, hplist, _, _⟩ :=
    process_file_spec fs oracle mp D scenes hD hS hne hwf'
  have hpos : 0 < scenes.length := List.length_pos.mpr hne
  refine ⟨fs', evs ++ [Event.write mp dfin], dfin, hrun, ?_, ?_, ?_, hmp, hpi, hdc,
    hprog⟩
  · rw [inferCount_append, hcnt, inferCount_cons_write]
    have hall : ∀ s ∈ scenes, needsInfer fs (parentDir mp) s = true := by
      intro s hs
      obtain ⟨sc, rfl, hdt, sp, hsp, _, hex⟩ := hwf s hs
      simp [needsInfer, hdt, hsp, hex]
    simp [List.countP_eq_length.mpr hall, inferCount]
  · rw [progressList_append, progressList_cons_write _ _ _ hprog, hplist]
    have : progressList ([] : List Event) = [] := rfl
    rw [this]
    exact progressSpec_chain scenes.length hpos scenes 0 (by simp)
  · rw [progressList_append, progressList_cons_write _ _ _ hprog, hplist]
    have : progressList ([] : List Event) = [] := rfl
    rw [this]
    exact List.getLast?_concat _

/-- C3: re-running `process_file` on a metadata file in which every scene
already carries a truthy description performs zero inference invocations,
and the file afterwards has `progress = 100` and
`descriptionsComplete = true`. -/
theorem process_file_all_described (fs : FS) (oracle : String → String)
    (mp : String) (D : Doc) (scenes : List Json)
    (hD : fs mp = .jsonDoc D)
    (hS : docFind D "scenes" = some (.arr scenes))
    (hne : scenes ≠ [])
    (hall : ∀ s ∈ scenes, ∃ sc, s = Json.obj sc ∧ descTruthy sc = true) :
    ∃ (fs' : FS) (T : List Event) (d : Doc),
      process_file fs oracle mp = (fs', T, false) ∧
      inferCount T = 0 ∧
      fs' mp = .jsonDoc d ∧
      docFind d "progress" = some (.num 100) ∧
      docFind d "descriptionsComplete" = some (.bool true) := by
  have hwf' : ∀ s ∈ scenes, SceneWF mp (parentDir mp) s := by
    intro s hs
    obtain ⟨sc, rfl, hts⟩ := hall s hs
    exact ⟨sc, rfl, Or.inl hts⟩
  obtain ⟨fs', evs, dfin, hrun, hmp, _, _, hdc, hprog, _, hcnt, _, _, _⟩ :=
    process_file_spec fs oracle mp D scenes hD hS hne hwf'
  refine ⟨fs', evs ++ [Event.write mp dfin], dfin, hrun, ?_, hmp, hprog, hdc⟩
  rw [inferCount_append, hcnt, inferCount_cons_write]
  have hzero : scenes.countP (needsInfer fs (parentDir mp)) = 0 := by
    rw [List.countP_eq_zero]
    intro s hs
    obtain ⟨sc, rfl, hts⟩ := hall s hs
    simp [needsInfer, hts]
  simp [hzero, inferCount]

/-- C6: in a `process_file` run on a well-formed metadata file, every
inference event in the trace is immediately preceded by a metadata write
whose document sets `processingIndex` to the index of the very scene being
inferred, `descriptionsComplete` to false and the recomputed `progress`,
and the inference runs on that scene's screenshot path (`InferMarked`
spells this out). -/
theorem process_file_marks_before_infer (fs : FS) (oracle : String → String)
    (mp : String) (D : Doc) (scenes : List Json)
    (hD : fs mp = .jsonDoc D)
    (hS : docFind D "scenes" = some (.arr scenes))
    (hne : scenes ≠ [])
    (hwf : ∀ s ∈ scenes, SceneWF mp (parentDir mp) s) :
    ∃ (fs' : FS) (T : List Event),
      process_file fs oracle mp = (fs', T, false) ∧
      InferMarked mp (parentDir mp) scenes.length scenes T := by
  obtain ⟨fs', evs, dfin, hrun, _, _, _, _, _, _, _, _, _, hmarked⟩ :=
    process_file_spec fs oracle mp D scenes hD hS hne hwf
  exact ⟨fs', evs ++ [Event.write mp dfin], hrun,
    inferMarked_append_write mp (parentDir mp) scenes.length scenes evs mp dfin
      hmarked⟩

/-- C7: a pending scene whose screenshot (resolved relative to the
metadata file's directory) does not exist receives the fixed fallback
description "Scene from video", no inference event mentions its image
path, and the run still completes normally with the terminal update. -/
theorem process_file_missing_screenshot (fs : FS) (oracle : String → String)
    (mp : String) (D : Doc) (scenes : List Json) (i : ℕ) (sc : Doc) (sp : String)
    (hD : fs mp = .jsonDoc D)
    (hS : docFind D "scenes" = some (.arr scenes))
    (hne : scenes ≠ [])
    (hwf : ∀ s ∈ scenes, SceneWF mp (parentDir mp) s)
    (hi : scenes[i]? = some (.obj sc))
    (hdt : descTruthy sc = false)
    (hsp : docFind sc "screenshotPath" = some (.str sp))
    (habs : fs (joinPath (parentDir mp) (pathName sp)) = .absent) :
    ∃ (fs' : FS) (T : List Event) (d : Doc),
      process_file fs oracle mp = (fs', T, false) ∧
      Event.infer (joinPath (parentDir mp) (pathName sp)) ∉ T ∧
      fs' mp = .jsonDoc d ∧
      docFind d "scenes" =
        some (.arr (scenes.map (procScene fs oracle (parentDir mp)))) ∧
      (scenes.map (procScene fs oracle (parentDir mp)))[i]? =
        some (.obj (setKey sc "description" (.str "Scene from video"))) ∧
      docFind d "descriptionsComplete" = some (.bool true) := by
  obtain ⟨fs', evs, dfin, hrun, hmp, _, _, hdc, _, hsc, _, _, hnoinfer, _⟩ :=
    process_file_spec fs oracle mp D scenes hD hS hne hwf
  refine ⟨fs', evs ++ [Event.write mp dfin], dfin, hrun, ?_, hmp, hsc, ?_, hdc⟩
  · intro hmem
    rcases List.mem_append.mp hmem with hmem | hmem
    · have := hnoinfer _ hmem
      rw [habs] at this
      exact Bool.noConfusion this
    · rw [List.mem_singleton] at hmem
      exact Event.noConfusion hmem
  · rw [List.getElem?_map, hi, Option.map_some']
    simp [procScene, hdt, hsp, habs, FileContent.fileExists]

/-- C9: the pipeline skips a scene exactly when its `description` is
present and truthy: a scene whose description is a non-empty string (an
error-message string included) is left unchanged, while one whose
description is absent, null or the empty string has its description
overwritten with some string. -/
theorem process_file_skip_iff (fs : FS) (oracle : String → String) (mp : String)
    (D : Doc) (scenes : List Json)
    (hD : fs mp = .jsonDoc D)
    (hS : docFind D "scenes" = some (.arr scenes))
    (hne : scenes ≠ [])
    (hwf : ∀ s ∈ scenes, SceneWF mp (parentDir mp) s) :
    ∃ (fs' : FS) (T : List Event) (d : Doc),
      process_file fs oracle mp = (fs', T, false) ∧
      fs' mp = .jsonDoc d ∧
      docFind d "scenes" =
        some (.arr (scenes.map (procScene fs oracle (parentDir mp)))) ∧
      ∀ (i : ℕ) (sc : Doc), scenes[i]? = some (Json.obj sc) →
        ((∃ s, docFind sc "description" = some (Json.str s) ∧ s ≠ "") →
          (scenes.map (procScene fs oracle (parentDir mp)))[i]? =
            some (Json.obj sc)) ∧
        ((docFind sc "description" = none ∨
          docFind sc "description" = some Json.null ∨
          docFind sc "description" = some (Json.str "")) →
          ∃ s', (scenes.map (procScene fs oracle (parentDir mp)))[i]? =
            some (Json.obj (setKey sc "description" (Json.str s')))) := by
  obtain ⟨fs', evs, dfin, hrun, hmp, _, _, _, _, hsc, _, _, _, _⟩ :=
    process_file_spec fs oracle mp D scenes hD hS hne hwf
  refine ⟨fs', evs ++ [Event.write mp dfin], dfin, hrun, hmp, hsc, ?_⟩
  intro i sc hi
  constructor
  · rintro ⟨s, hds, hsne⟩
    have hts : descTruthy sc = true := by
      simp [descTruthy, hds, Json.truthy, hsne]
    rw [List.getElem?_map, hi, Option.map_some']
    simp [procScene, hts]
  · intro hd
    have hts : descTruthy sc = false := by
      rcases hd with hd | hd | hd <;> simp [descTruthy, hd, Json.truthy]
    have hps : ∃ s', procScene fs oracle (parentDir mp) (Json.obj sc) =
        Json.obj (setKey sc "description" (Json.str s')) := by
      simp only [procScene, hts, Bool.false_eq_true, if_false]
      exact ⟨_, rfl⟩
    obtain ⟨s', hps⟩ := hps
    refine ⟨s', ?_⟩
    rw [List.getElem?_map, hi, Option.map_some', hps]

/-- C10: when the metadata file is missing, or present with its `scenes`
field absent or an empty list, `process_file` returns without writing
anything: the store is unchanged and the trace is empty (in particular
`descriptionsComplete` is never set and `progress` never written). -/
theorem process_file_no_scenes (fs : FS) (oracle : String → String) (mp : String)
    (h : fs mp = .absent ∨ ∃ D, fs mp = .jsonDoc D ∧
      (docFind D "scenes" = none ∨ docFind D "scenes" = some (.arr []))) :
    process_file fs oracle mp = (fs, [], false) := by
  rcases h with h | ⟨D, hD, h⟩
  · simp [process_file, h]
  · rcases h with h | h
    · simp [process_file, hD, h, Json.truthy]
    · simp [process_file, hD, h, Json.truthy]

/-- C4: a detection command (a line whose stripped form starts with
`DETECT|`) with a number of pipe-separated fields other than 4 yields
exactly the reply line `DETECT_DONE|[]`, leaves the store untouched and
never invokes the scene-detector adapter. -/
theorem detect_malformed_reply (env : DetectEnv) (oracle : String → String)
    (fs : FS) (line : String)
    (hstart : strStarts (pyStrip line) "DETECT|" = true)
    (hlen : (splitPipe (pyStrip line)).length ≠ 4) :
    commandStep env oracle fs line = .reply fs ["DETECT_DONE|[]"] 0 := by
  have h1 : ¬(pyStrip line = "" ∨ pyStrip line = "EXIT") := by
    rintro (h | h) <;> rw [h] at hstart <;> exact absurd hstart (by decide)
  unfold commandStep
  rw [if_neg h1, if_pos hstart, if_pos hlen]

/-- C5 (amended): a description command whose metadata file is missing or
unparsable leaves the store untouched, invokes no detector, and the loop
still emits the standard `DONE:<path>` reply line on the control channel
(the error itself goes to the log). -/
theorem description_error_still_replies (env : DetectEnv)
    (oracle : String → String) (fs : FS) (line : String)
    (h0 : pyStrip line ≠ "") (h1 : pyStrip line ≠ "EXIT")
    (h2 : strStarts (pyStrip line) "DETECT|" = false)
    (h3 : fs (pyStrip line) = .absent ∨ fs (pyStrip line) = .other) :
    commandStep env oracle fs line = .reply fs ["DONE:" ++ pyStrip line] 0 := by
  unfold commandStep
  rw [if_neg (by rintro (h | h); exact h0 h; exact h1 h), if_neg (by rw [h2]; simp)]
  rcases h3 with h3 | h3 <;> simp [process_file, h3]

/-- C8 (amended): the adapter returns the empty scene sequence when the
video cannot be opened, and also when it opens with a nonzero reported
fps but zero frames decode; with a zero reported fps a ZeroDivisionError
escapes instead (raised by the logging line, caught by the command
loop). -/
theorem detect_scenes_empty (cap : VideoCapture)
    (video_path upload_id output_dir : String) (sceneStarts : ℕ → List ℕ)
    (h : cap.opened = false ∨ (cap.fps ≠ 0 ∧ cap.decodedFrames = 0)) :
    detect_scenes_transnet cap video_path upload_id output_dir sceneStarts =
      .ok [] := by
  rcases h with h | ⟨h1, h2⟩
  · simp [detect_scenes_transnet, h]
  · cases hop : cap.opened <;>
      simp [detect_scenes_transnet, hop, h1, h2]

/-- Witness for C2 at a one-scene store: one pending scene with an
existing screenshot. -/
theorem process_file_fresh_run_witness :
    ∃ (fs' : FS) (T : List Event) (d : Doc),
      process_file wFsPending wOracle wMp = (fs', T, false) ∧
      inferCount T = ([wScenePending] : List Json).length ∧
      List.Chain' (· ≤ ·) (progressList T) ∧
      (progressList T).getLast? = some 100 ∧
      fs' wMp = .jsonDoc d ∧
      docFind d "processingIndex" = some (.num (-1)) ∧
      docFind d "descriptionsComplete" = some (.bool true) ∧
      docFind d "progress" = some (.num 100) :=
  process_file_fresh_run wFsPending wOracle wMp wDocPending [wScenePending]
    rfl rfl (by simp)
    (by
      intro s hs
      rw [List.mem_singleton] at hs
      subst hs
      exact ⟨[("screenshotPath", Json.str "img.jpg")], rfl, rfl, "img.jpg",
        rfl, by decide, rfl⟩)

/-- Witness for C3 at a one-scene store whose scene is described. -/
theorem process_file_all_described_witness :
    ∃ (fs' : FS) (T : List Event) (d : Doc),
      process_file wFsDescribed wOracle wMp = (fs', T, false) ∧
      inferCount T = 0 ∧
      fs' wMp = .jsonDoc d ∧
      docFind d "progress" = some (.num 100) ∧
      docFind d "descriptionsComplete" = some (.bool true) :=
  process_file_all_described wFsDescribed wOracle wMp wDocDescribed
    [wSceneDescribed] rfl rfl (by simp)
    (by
      intro s hs
      rw [List.mem_singleton] at hs
      subst hs
      exact ⟨[("screenshotPath", Json.str "img.jpg"),
        ("description", Json.str "an old shot")], rfl, rfl⟩)

/-- Witness for C6 at a one-scene store with a pending scene. -/
theorem process_file_marks_before_infer_witness :
    ∃ (fs' : FS) (T : List Event),
      process_file wFsPending wOracle wMp = (fs', T, false) ∧
      InferMarked wMp (parentDir wMp) ([wScenePending] : List Json).length
        [wScenePending] T :=
  process_file_marks_before_infer wFsPending wOracle wMp wDocPending
    [wScenePending] rfl rfl (by simp)
    (by
      intro s hs
      rw [List.mem_singleton] at hs
      subst hs
      exact ⟨[("screenshotPath", Json.str "img.jpg")], rfl,
        Or.inr ⟨"img.jpg", rfl, by decide⟩⟩)

/-- Witness for C7 at a one-scene store whose screenshot is missing. -/
theorem process_file_missing_screenshot_witness :
    ∃ (fs' : FS) (T : List Event) (d : Doc),
      process_file wFsNoImg wOracle wMp = (fs', T, false) ∧
      Event.infer (joinPath (parentDir wMp) (pathName "img.jpg")) ∉ T ∧
      fs' wMp = .jsonDoc d ∧
      docFind d "scenes" =
        some (.arr (([wScenePending] : List Json).map
          (procScene wFsNoImg wOracle (parentDir wMp)))) ∧
      (([wScenePending] : List Json).map
          (procScene wFsNoImg wOracle (parentDir wMp)))[0]? =
        some (.obj (setKey [("screenshotPath", Json.str "img.jpg")] "description"
          (.str "Scene from video"))) ∧
      docFind d "descriptionsComplete" = some (.bool true) :=
  process_file_missing_screenshot wFsNoImg wOracle wMp wDocPending
    [wScenePending] 0 [("screenshotPath", Json.str "img.jpg")] "img.jpg"
    rfl rfl (by simp)
    (by
      intro s hs
      rw [List.mem_singleton] at hs
      subst hs
      exact ⟨[("screenshotPath", Json.str "img.jpg")], rfl,
        Or.inr ⟨"img.jpg", rfl, by decide⟩⟩)
    rfl rfl rfl rfl

/-- Witness for C9 at a two-scene store: a described scene is kept
unchanged, a null-description one is overwritten. -/
theorem process_file_skip_iff_witness :
    ∃ (fs' : FS) (T : List Event) (d : Doc),
      process_file wFsMixed wOracle wMp = (fs', T, false) ∧
      fs' wMp = .jsonDoc d ∧
      docFind d "scenes" =
        some (.arr (([wSceneDescribed, wSceneNullDesc] : List Json).map
          (procScene wFsMixed wOracle (parentDir wMp)))) ∧
      ∀ (i : ℕ) (sc : Doc),
        ([wSceneDescribed, wSceneNullDesc] : List Json)[i]? =
          some (Json.obj sc) →
        ((∃ s, docFind sc "description" = some (Json.str s) ∧ s ≠ "") →
          (([wSceneDescribed, wSceneNullDesc] : List Json).map
            (procScene wFsMixed wOracle (parentDir wMp)))[i]? =
            some (Json.obj sc)) ∧
        ((docFind sc "description" = none ∨
          docFind sc "description" = some Json.null ∨
          docFind sc "description" = some (Json.str "")) →
          ∃ s', (([wSceneDescribed, wSceneNullDesc] : List Json).map
            (procScene wFsMixed wOracle (parentDir wMp)))[i]? =
            some (Json.obj (setKey sc "description" (Json.str s')))) :=
  process_file_skip_iff wFsMixed wOracle wMp wDocMixed
    [wSceneDescribed, wSceneNullDesc] rfl rfl (by simp)
    (by
      intro s hs
      rw [List.mem_cons, List.mem_singleton] at hs
      rcases hs with rfl | rfl
      · exact ⟨[("screenshotPath", Json.str "img.jpg"),
          ("description", Json.str "an old shot")], rfl,
          Or.inr ⟨"img.jpg", rfl, by decide⟩⟩
      · exact ⟨[("screenshotPath", Json.str "img.jpg"),
          ("description", Json.null)], rfl,
          Or.inr ⟨"img.jpg", rfl, by decide⟩⟩)

/-- Witness for C10 at an empty store: the metadata file is missing. -/
theorem process_file_no_scenes_witness :
    process_file wFsEmpty wOracle wMp = (wFsEmpty, [], false) :=
  process_file_no_scenes wFsEmpty wOracle wMp (Or.inl rfl)

/-- Witness for C4 at a three-field detection line. -/
theorem detect_malformed_reply_witness :
    commandStep wEnv wOracle wFsEmpty "DETECT|a|b" =
      .reply wFsEmpty ["DETECT_DONE|[]"] 0 :=
  detect_malformed_reply wEnv wOracle wFsEmpty "DETECT|a|b" (by decide) (by decide)

/-- Counterexample for C5 as stated: on a description command whose
metadata file is missing, the loop does emit a reply line on the control
channel, namely `DONE:meta.json` — not nothing. -/
theorem description_error_reply_cex :
    commandStep wEnv wOracle wFsEmpty "meta.json" =
      .reply wFsEmpty ["DONE:meta.json"] 0 ∧
    (["DONE:meta.json"] : List String) ≠ [] :=
  ⟨rfl, by simp⟩

/-- Witness for C5 (amended) at a missing metadata file. -/
theorem description_error_still_replies_witness :
    commandStep wEnv wOracle wFsEmpty "gone.json" =
      .reply wFsEmpty ["DONE:" ++ pyStrip "gone.json"] 0 :=
  description_error_still_replies wEnv wOracle wFsEmpty "gone.json"
    (by decide) (by decide) (by decide) (Or.inl rfl)

/-- Counterexample for C8 as stated: a video that opens with zero
reported fps (and zero frames) does not yield the empty sequence — a
ZeroDivisionError escapes the adapter instead. -/
theorem detect_scenes_fps_zero_cex :
    detect_scenes_transnet ⟨true, 0, 0⟩ "v.mp4" "u1" "out" (fun _ => []) =
      .error "ZeroDivisionError: float division by zero" ∧
    detect_scenes_transnet ⟨true, 0, 0⟩ "v.mp4" "u1" "out" (fun _ => []) ≠
      .ok [] := by
  constructor
  · simp [detect_scenes_transnet]
  · intro h
    simp [detect_scenes_transnet] at h

/-- Witness for C8 (amended) at an opened zero-frame video with normal
fps. -/
theorem detect_scenes_empty_witness :
    detect_scenes_transnet ⟨true, 25, 0⟩ "v.mp4" "u1" "out" (fun _ => []) =
      .ok [] :=
  detect_scenes_empty ⟨true, 25, 0⟩ "v.mp4" "u1" "out" (fun _ => [])
    (Or.inr ⟨by norm_num, rfl⟩)

end Shotlister
